import Mathlib

/-!
Verification of the saasscan multi-source signal fusion core.

This file gives a shallow embedding of the pure decision logic of the
repository:

* `combineResults` — the stack-fusion engine of the CLI module
  (src/unnamed/part_004, function `combineResults`), parametrised over the
  `PRODUCT_URLS` lookup table (a static catalog in the source).
* `webCombine` — the near-duplicate fusion pass inlined in the web API
  handler (src/web/src/app/api/discover/route.ts, `POST`); it differs from
  `combineResults` in the url fallback (none) and the sort comparator.
* `calculateSavings` — the savings aggregator (src/lib/scorer.js).
* `detectFromWebsite` / `detectFromDNS` — the fingerprint matcher
  (src/unnamed/part_001), with regex patterns embedded as boolean
  predicates on strings and the fingerprint catalog as a parameter.

JavaScript `Map` objects are embedded as association lists with
JS `Map.set` semantics (replace in place if the key exists, else append),
which preserves the insertion order that the stable `Array.prototype.sort`
then relies on.  JS string truthiness (`""` is falsy) and number
truthiness (`0` is falsy) are modelled explicitly (`strTruthy`,
`jsOrNat`).  `localeCompare` is modelled as the character-code order on
Lean strings.
-/

namespace SaasScan

/-- Confidence levels, the closed enum of the data model ("high" | "medium"
| "low", the TypeScript union in src/web/src/lib/detect.ts). -/
inductive Confidence
  | high
  | medium
  | low
deriving DecidableEq, Repr

/-- `confidenceOrder` of `combineResults`: high=0, medium=1, low=2. -/
def confRank : Confidence → Nat
  | .high => 0
  | .medium => 1
  | .low => 2

/-- Output of the fingerprint matcher for one product (part_001; `category`
is filled in by the caller `discoverCompanyStack` before fusion, so the
detection pass itself leaves it empty). -/
structure DetectedProduct where
  name : String
  category : String
  confidence : Confidence
  score : Nat
  evidence : List String
  url : Option String
  source : String
deriving DecidableEq, Repr

/-- One claimed product from the LLM collaborator (`InferredProduct` of the
web route; `url` and `evidence` may be absent, and an empty string is
falsy in the JS tests `product.url || ...` and `if (product.evidence)`). -/
structure InferredProduct where
  name : String
  category : String
  url : Option String
  confidence : Confidence
  source : String
  evidence : Option String
deriving DecidableEq, Repr

/-- The fused record of the discovered stack. -/
structure CombinedProduct where
  name : String
  category : String
  url : Option String
  confidence : Confidence
  sources : List String
  evidence : List String
deriving DecidableEq, Repr

/-- JS `toLowerCase`, evaluated character by character.  (Defined over the
character list so that the kernel can evaluate it on concrete inputs;
`String.toLower` itself is defined by well-founded recursion on byte
positions and does not reduce.) -/
def strToLower (s : String) : String :=
  String.mk (s.data.map Char.toLower)

/-- JS truthiness of an optional string (`undefined` and `""` are falsy). -/
def strTruthy : Option String → Bool
  | some s => !(s == "")
  | none => false

/-- JS `a || b` on optional strings. -/
def jsOrStr (a b : Option String) : Option String :=
  if strTruthy a then a else b

/-- JS `a || b` on numbers where `a` is a `Nat` (`0` is falsy). -/
def jsOrNat (a b : Nat) : Nat :=
  if a = 0 then b else a

/-- Association-list lookup, the embedding of JS `Map.get`. -/
def getA {α : Type} : List (String × α) → String → Option α
  | [], _ => none
  | (k, v) :: m, key => if k = key then some v else getA m key

/-- Association-list update, the embedding of JS `Map.set`: replace the
value in place when the key is present (keeping its position), otherwise
append at the end (JS `Map` iteration order is insertion order). -/
def setA {α : Type} : List (String × α) → String → α → List (String × α)
  | [], key, v => [(key, v)]
  | (k, w) :: m, key, v =>
      if k = key then (key, v) :: m else (k, w) :: setA m key v

/-- The map held during a fusion pass. -/
abbrev CMap := List (String × CombinedProduct)

/-- Step 1 of `combineResults` for one detected product: seed the map under
the lowercase name with `sources = ["website_detection"]`. -/
def seedStep (m : CMap) (p : DetectedProduct) : CMap :=
  setA m (strToLower p.name)
    { name := p.name
      category := p.category
      url := p.url
      confidence := p.confidence
      sources := ["website_detection"]
      evidence := p.evidence }

/-- The identity key of an inferred product: its lowercase name. -/
def ikey (q : InferredProduct) : String :=
  strToLower q.name

/-- The evidence contribution of an inferred product: `[product.evidence]`
when truthy, else nothing (`if (product.evidence) ...`). -/
def evContrib (q : InferredProduct) : List String :=
  if strTruthy q.evidence then [q.evidence.getD ""] else []

/-- The corroboration update applied to an existing entry when the same
key arrives from inference: confidence is forced to high, the inferred
source is appended, and truthy evidence is appended. -/
def corroborate (e : CombinedProduct) (q : InferredProduct) : CombinedProduct :=
  { e with
      confidence := .high
      sources := e.sources ++ [q.source]
      evidence := e.evidence ++ evContrib q }

/-- A fresh entry built from an inferred product alone
(`url: product.url || PRODUCT_URLS[product.name] || null`). -/
def inferredEntry (productUrls : String → Option String) (q : InferredProduct) :
    CombinedProduct :=
  { name := q.name
    category := q.category
    url := jsOrStr q.url (jsOrStr (productUrls q.name) none)
    confidence := q.confidence
    sources := [q.source]
    evidence := evContrib q }

/-- Step 2 of `combineResults` for one inferred product. -/
def mergeStep (productUrls : String → Option String) (m : CMap)
    (q : InferredProduct) : CMap :=
  match getA m (ikey q) with
  | some e => setA m (ikey q) (corroborate e q)
  | none => setA m (ikey q) (inferredEntry productUrls q)

/-- The sort relation of `combineResults`: ascending confidence rank, then
name (`localeCompare` modelled as the order on Lean strings). -/
def fuseLe (a b : CombinedProduct) : Prop :=
  confRank a.confidence < confRank b.confidence ∨
    (confRank a.confidence = confRank b.confidence ∧ a.name ≤ b.name)

instance : DecidableRel fuseLe := by
  intro a b
  unfold fuseLe
  infer_instance

instance : IsTotal CombinedProduct fuseLe := by
  constructor
  intro a b
  unfold fuseLe
  rcases Nat.lt_trichotomy (confRank a.confidence) (confRank b.confidence) with h | h | h
  · exact Or.inl (Or.inl h)
  · rcases le_total a.name b.name with h2 | h2
    · exact Or.inl (Or.inr ⟨h, h2⟩)
    · exact Or.inr (Or.inr ⟨h.symm, h2⟩)
  · exact Or.inr (Or.inl h)

instance : IsTrans CombinedProduct fuseLe := by
  constructor
  intro a b c hab hbc
  unfold fuseLe at *
  rcases hab with h1 | ⟨h1, h1n⟩
  · rcases hbc with h2 | ⟨h2, _⟩
    · exact Or.inl (h1.trans h2)
    · exact Or.inl (h2 ▸ h1)
  · rcases hbc with h2 | ⟨h2, h2n⟩
    · exact Or.inl (h1 ▸ h2)
    · exact Or.inr ⟨h1.trans h2, h1n.trans h2n⟩

/-- The fusion engine `combineResults` of part_004: seed from detections,
merge inferences, return the values sorted by confidence then name.
The sort is Mathlib's stable insertion sort, which agrees with the
(stable) JS `Array.prototype.sort`. -/
def combineResults (productUrls : String → Option String)
    (detected : List DetectedProduct) (inferred : List InferredProduct) :
    List CombinedProduct :=
  let seeded := detected.foldl seedStep []
  let merged := inferred.foldl (mergeStep productUrls) seeded
  List.insertionSort fuseLe (merged.map Prod.snd)

/-- The web handler's sort comparator rank:
`confidenceOrder[c] || 2`, so `high` (rank 0, falsy!) is ranked 2. -/
def webRank (c : Confidence) : Nat :=
  jsOrNat (confRank c) 2

/-- The web handler's sort relation: it compares only the (JS-or-defaulted)
confidence ranks and never looks at names. -/
def webLe (a b : CombinedProduct) : Prop :=
  webRank a.confidence ≤ webRank b.confidence

instance : DecidableRel webLe := by
  intro a b
  unfold webLe
  infer_instance

instance : IsTotal CombinedProduct webLe := by
  constructor
  intro a b
  exact le_total (webRank a.confidence) (webRank b.confidence)

instance : IsTrans CombinedProduct webLe := by
  constructor
  intro a b c hab hbc
  exact le_trans hab hbc

/-- The fusion pass inlined in the web route's `POST` handler: the same
seed and merge steps (with no `PRODUCT_URLS` fallback for new inferred
entries), sorted with the confidence-only comparator. -/
def webCombine (detected : List DetectedProduct)
    (inferred : List InferredProduct) : List CombinedProduct :=
  let seeded := detected.foldl seedStep []
  let merged := inferred.foldl (mergeStep (fun _ => none)) seeded
  List.insertionSort webLe (merged.map Prod.snd)

/-! ### Savings aggregator (src/lib/scorer.js, `calculateSavings`) -/

/-- The per-product judgment consumed by the aggregator.  Both fields may
be absent in the parsed LLM output; `none` models a missing field. -/
structure VScore where
  vulnerability_score : Option Int
  estimated_annual_cost : Option Int
deriving DecidableEq, Repr

/-- One element of the batch result array: `{success, score?}`. -/
structure ScoredResult where
  success : Bool
  score : Option VScore
deriving DecidableEq, Repr

/-- The negotiation summary returned by `calculateSavings`. -/
structure SavingsSummary where
  totalEstimatedCost : Int
  negotiableProducts : Nat
  potentialSavings : Int
  discountPercent : ℚ
deriving DecidableEq, Repr

/-- The JS test `score.vulnerability_score >= 6 && score.estimated_annual_cost`:
a missing vulnerability score compares false (`undefined >= 6` is false) and
the cost is tested for truthiness, so a cost of `0` fails the test. -/
def contributes (s : VScore) : Bool :=
  (match s.vulnerability_score with
    | some v => decide (6 ≤ v)
    | none => false) &&
  (match s.estimated_annual_cost with
    | some c => !(c == 0)
    | none => false)

/-- One loop iteration of `calculateSavings`.  Accessing
`score.vulnerability_score` on a missing `score` object is a JS
`TypeError`, modelled as `Except.error`. -/
def savingsStep (acc : Int × Nat) (r : ScoredResult) : Except String (Int × Nat) :=
  if r.success then
    match r.score with
    | none => .error "TypeError: cannot read vulnerability_score of undefined"
    | some s =>
        if contributes s then
          .ok (acc.1 + s.estimated_annual_cost.getD 0, acc.2 + 1)
        else
          .ok acc
  else
    .ok acc

/-- The accumulation loop of `calculateSavings`. -/
def savingsLoop (acc : Int × Nat) : List ScoredResult → Except String (Int × Nat)
  | [] => .ok acc
  | r :: rest =>
      match savingsStep acc r with
      | .ok acc2 => savingsLoop acc2 rest
      | .error e => .error e

/-- `calculateSavings(scores, discountPercent = 15)` of src/lib/scorer.js.
`potentialSavings = Math.round(totalEstimatedCost * (discountPercent / 100))`,
with `Math.round` modelled as Mathlib's `round` on ℚ (both round halves
toward positive infinity). -/
def calculateSavings (scores : List ScoredResult) (discountPercent : ℚ) :
    Except String SavingsSummary :=
  match savingsLoop (0, 0) scores with
  | .error e => .error e
  | .ok (total, cnt) =>
      .ok { totalEstimatedCost := total
            negotiableProducts := cnt
            potentialSavings := round ((total : ℚ) * (discountPercent / 100))
            discountPercent := discountPercent }

/-- Modelled from the spec (and from the claim's own wording, for the
refinement comparison of C4): the count of results the claim says the
counter is incremented for — successful, vulnerability score at least 6,
and cost non-null (with no non-zero requirement). -/
def claimedNegotiableCount (scores : List ScoredResult) : Nat :=
  (scores.filter (fun r =>
    r.success &&
      (match r.score with
        | some s =>
            (match s.vulnerability_score with
              | some v => decide (6 ≤ v)
              | none => false) && s.estimated_annual_cost.isSome
        | none => false))).length

/-- A result is negotiable for the code exactly when it is successful,
its score object is present and `contributes`. -/
def negotiable (r : ScoredResult) : Bool :=
  r.success &&
    (match r.score with
      | some s => contributes s
      | none => false)

/-- The cost a result adds when negotiable. -/
def costOf (r : ScoredResult) : Int :=
  (r.score.bind (fun s => s.estimated_annual_cost)).getD 0

-- Decidable equality on `Except`, to evaluate the aggregator on concrete
-- inputs.
deriving instance DecidableEq for Except

/-- The negotiable spend of a result list: the summed costs of its
negotiable results. -/
def specTotal (scores : List ScoredResult) : Int :=
  ((scores.filter negotiable).map costOf).sum

/-- A well-formed association map: no key occurs twice.  Every map built
by `setA` from the empty map has this shape. -/
def nodupKeys {α : Type} (m : List (String × α)) : Prop :=
  (m.map Prod.fst).Nodup

/-- The update an inferred list applies to one existing map entry: the
first (and, for duplicate-free key lists, only) inferred product with the
entry's key corroborates it. -/
def updOf (l : List InferredProduct) (kv : String × CombinedProduct) :
    String × CombinedProduct :=
  match l.find? (fun q => ikey q == kv.1) with
  | some q => (kv.1, corroborate kv.2 q)
  | none => kv

/-- The seeded entries after a merge pass with inferred list `l`. -/
def updSeed (l : List InferredProduct) (s : CMap) : CMap :=
  s.map (updOf l)

/-- The entries a merge pass appends: one fresh entry per inferred product
whose key is not already seeded, in list order. -/
def news (productUrls : String → Option String) (s : CMap)
    (l : List InferredProduct) : CMap :=
  (l.filter (fun q => (getA s (ikey q)).isNone)).map
    (fun q => (ikey q, inferredEntry productUrls q))

/-! ### Fingerprint matcher (src/unnamed/part_001) -/

/-- A detection-rule pattern.  The source stores compiled regular
expressions; the embedding keeps only their extension, a boolean test on
strings, which is all the matching engine uses. -/
abbrev Pattern := String → Bool

/-- One product's fingerprint: the per-kind rule lists of the static
`FINGERPRINTS` catalog.  A `globals` rule keeps the global's name (used
in the evidence string) with the word-boundary test the source compiles
from it. -/
structure Fingerprint where
  name : String
  scripts : List Pattern
  globals : List (String × Pattern)
  meta : List Pattern
  headers : List Pattern
  iframes : List Pattern
  dns : List Pattern

/-- The page evidence collected before matching: external script URLs,
inline script bodies, iframe URLs, meta contents, and response headers. -/
structure PageEvidence where
  scripts : List String
  inlineScripts : List String
  iframes : List String
  metaContent : List String
  headers : List (String × String)

/-- Evaluate the rules of one kind: each rule contributes weight `w` and
one evidence string on its first matching item (`break` in the source),
so a rule is counted at most once however many items match it. -/
def scanKind {ρ : Type} (w : Nat) (test : ρ → Option String) :
    List ρ → Nat × List String
  | [] => (0, [])
  | p :: ps =>
      match test p with
      | some e => (w + (scanKind w test ps).1, e :: (scanKind w test ps).2)
      | none => scanKind w test ps

/-- One script rule against the collected script URLs: the first matching
source yields the truncated evidence preview. -/
def scriptTest (ev : PageEvidence) (p : Pattern) : Option String :=
  (ev.scripts.find? p).map (fun s => "script: " ++ s.take 60)

/-- One global rule against the inline script bodies
(`if (script && pattern.test(script))`: empty bodies are falsy). -/
def globalTest (ev : PageEvidence) (gp : String × Pattern) : Option String :=
  if ev.inlineScripts.any (fun s => !(s == "") && gp.2 s) then
    some ("global: " ++ gp.1)
  else none

/-- One meta rule against the meta contents. -/
def metaTest (ev : PageEvidence) (p : Pattern) : Option String :=
  (ev.metaContent.find? p).map (fun c => "meta: " ++ c.take 40)

/-- One header rule against the response headers (key or value may match;
the evidence names the key). -/
def headerTest (ev : PageEvidence) (p : Pattern) : Option String :=
  (ev.headers.find? (fun kv => p kv.1 || p kv.2)).map
    (fun kv => "header: " ++ kv.1)

/-- One iframe rule against the iframe sources (truthiness-guarded). -/
def iframeTest (ev : PageEvidence) (p : Pattern) : Option String :=
  (ev.iframes.find? (fun s => !(s == "") && p s)).map
    (fun s => "iframe: " ++ s.take 60)

/-- The per-product website matching loop of `detectFromWebsite`
(part_001): scripts weight 40, globals 30, meta 20, headers 25,
iframes 35, with the source's truncated evidence previews, accumulated
in the source's kind order. -/
def websiteScoreEv (fp : Fingerprint) (ev : PageEvidence) : Nat × List String :=
  ((scanKind 40 (scriptTest ev) fp.scripts).1 +
     (scanKind 30 (globalTest ev) fp.globals).1 +
     (scanKind 20 (metaTest ev) fp.meta).1 +
     (scanKind 25 (headerTest ev) fp.headers).1 +
     (scanKind 35 (iframeTest ev) fp.iframes).1,
   (scanKind 40 (scriptTest ev) fp.scripts).2 ++
     (scanKind 30 (globalTest ev) fp.globals).2 ++
     (scanKind 20 (metaTest ev) fp.meta).2 ++
     (scanKind 25 (headerTest ev) fp.headers).2 ++
     (scanKind 35 (iframeTest ev) fp.iframes).2)

/-- Confidence bucketing from the accumulated score:
at least 60 high, at least 30 medium, else low. -/
def confBucket (n : Nat) : Confidence :=
  if n ≥ 60 then .high else if n ≥ 30 then .medium else .low

/-- Emission of one product from the website pass: skipped at score 0,
otherwise emitted with the score clamped at 100
(`score: Math.min(confidence, 100)`). -/
def detectProductW (productUrls : String → Option String) (fp : Fingerprint)
    (ev : PageEvidence) : Option DetectedProduct :=
  if (websiteScoreEv fp ev).1 > 0 then
    some { name := fp.name
           category := ""
           confidence := confBucket (websiteScoreEv fp ev).1
           score := min (websiteScoreEv fp ev).1 100
           evidence := (websiteScoreEv fp ev).2
           url := jsOrStr (productUrls fp.name) none
           source := "website_detection" }
  else none

/-- The map held during a detection pass. -/
abbrev DMap := List (String × DetectedProduct)

/-- One catalog step of the website pass. -/
def websiteStep (productUrls : String → Option String) (ev : PageEvidence)
    (m : DMap) (fp : Fingerprint) : DMap :=
  match detectProductW productUrls fp ev with
  | some dp => setA m fp.name dp
  | none => m

/-- One catalog step of the DNS pass (`detectFromDNS`): when any dns rule
matches the collected DNS text, an already-detected product gets its score
raised by 20 (with no clamp) and `"dns_record"` appended to its evidence;
an undetected one is inserted at score 30, confidence medium. -/
def dnsStep (productUrls : String → Option String) (dnsContent : String)
    (m : DMap) (fp : Fingerprint) : DMap :=
  if fp.dns.any (fun p => p dnsContent) then
    match getA m fp.name with
    | some e =>
        setA m fp.name
          { e with score := e.score + 20, evidence := e.evidence ++ ["dns_record"] }
    | none =>
        setA m fp.name
          { name := fp.name
            category := ""
            confidence := .medium
            score := 30
            evidence := ["dns_record"]
            url := jsOrStr (productUrls fp.name) none
            source := "dns_detection" }
  else m

/-- Substring test on character lists (executable). -/
def listContains (needle : List Char) : List Char → Bool
  | [] => needle.isEmpty
  | c :: rest => needle.isPrefixOf (c :: rest) || listContains needle rest

/-- Case-insensitive substring containment, the model of a
case-insensitive literal-alternative regex test. -/
def strContainsCI (hay needle : String) : Bool :=
  listContains (needle.data.map Char.toLower) (hay.data.map Char.toLower)

/-- The test `/google|gmail|googlemail/i.test(mxString)`. -/
def mxIsGoogle (mx : String) : Bool :=
  strContainsCI mx "google" || strContainsCI mx "gmail" || strContainsCI mx "googlemail"

/-- The test `/outlook|microsoft/i.test(mxString)`. -/
def mxIsMicrosoft (mx : String) : Bool :=
  strContainsCI mx "outlook" || strContainsCI mx "microsoft"

/-- The fixed record emitted for a Google MX provider. -/
def googleWorkspaceEntry : DetectedProduct :=
  { name := "Google Workspace"
    category := ""
    confidence := .high
    score := 80
    evidence := ["mx_record"]
    url := some "https://workspace.google.com"
    source := "dns_detection" }

/-- The fixed record emitted for a Microsoft MX provider. -/
def microsoft365Entry : DetectedProduct :=
  { name := "Microsoft 365"
    category := ""
    confidence := .high
    score := 80
    evidence := ["mx_record"]
    url := some "https://microsoft.com/microsoft-365"
    source := "dns_detection" }

/-- The Google Workspace branch of the mail-provider special case. -/
def mailGoogle (m : DMap) (mx : String) : DMap :=
  if mxIsGoogle mx then setA m "Google Workspace" googleWorkspaceEntry else m

/-- The special-cased mail-provider detection at the end of
`detectFromDNS`: both provider checks run, each setting its fixed entry. -/
def mailStep (m : DMap) (mx : String) : DMap :=
  if mxIsMicrosoft mx then
    setA (mailGoogle m mx) "Microsoft 365" microsoft365Entry
  else mailGoogle m mx

/-- `detectFromDNS`: the generic dns-rule pass over the catalog followed by
the mail-provider special cases. -/
def detectFromDNS (productUrls : String → Option String)
    (catalog : List Fingerprint) (dnsContent mx : String) (m : DMap) : DMap :=
  mailStep (catalog.foldl (dnsStep productUrls dnsContent) m) mx

/-- The descending-score sort relation of `detectFromWebsite`
(`(a, b) => b.score - a.score`). -/
def scoreGe (a b : DetectedProduct) : Prop :=
  b.score ≤ a.score

instance : DecidableRel scoreGe := by
  intro a b
  unfold scoreGe
  infer_instance

instance : IsTotal DetectedProduct scoreGe := by
  constructor
  intro a b
  exact le_total b.score a.score

instance : IsTrans DetectedProduct scoreGe := by
  constructor
  intro a b c hab hbc
  exact le_trans hbc hab

/-- The full detection pass of `detectFromWebsite` (part_001): the website
matching loop over the catalog, the DNS pass, then the values sorted by
descending score. -/
def detectFromWebsite (productUrls : String → Option String)
    (catalog : List Fingerprint) (ev : PageEvidence) (dnsContent mx : String) :
    List DetectedProduct :=
  let m := catalog.foldl (websiteStep productUrls ev) []
  let m2 := detectFromDNS productUrls catalog dnsContent mx m
  List.insertionSort scoreGe (m2.map Prod.snd)

/-- Number of script rules with at least one matching item. -/
def matchedScripts (fp : Fingerprint) (ev : PageEvidence) : Nat :=
  (fp.scripts.filter (fun p => ev.scripts.any p)).length

/-- Number of global rules with at least one matching inline script. -/
def matchedGlobals (fp : Fingerprint) (ev : PageEvidence) : Nat :=
  (fp.globals.filter (fun gp => ev.inlineScripts.any (fun s => !(s == "") && gp.2 s))).length

/-- Number of meta rules with at least one matching meta content. -/
def matchedMeta (fp : Fingerprint) (ev : PageEvidence) : Nat :=
  (fp.meta.filter (fun p => ev.metaContent.any p)).length

/-- Number of header rules matching some header key or value. -/
def matchedHeaders (fp : Fingerprint) (ev : PageEvidence) : Nat :=
  (fp.headers.filter (fun p => ev.headers.any (fun kv => p kv.1 || p kv.2))).length

/-- Number of iframe rules with at least one matching iframe source. -/
def matchedIframes (fp : Fingerprint) (ev : PageEvidence) : Nat :=
  (fp.iframes.filter (fun p => ev.iframes.any (fun s => !(s == "") && p s))).length

/-- Total number of matched rules across all kinds. -/
def matchedTotal (fp : Fingerprint) (ev : PageEvidence) : Nat :=
  matchedScripts fp ev + matchedGlobals fp ev + matchedMeta fp ev +
    matchedHeaders fp ev + matchedIframes fp ev

/-- The largest website score a fingerprint can accumulate: every rule of
every kind matching once. -/
def maxWeight (fp : Fingerprint) : Nat :=
  40 * fp.scripts.length + 30 * fp.globals.length + 20 * fp.meta.length +
    25 * fp.headers.length + 35 * fp.iframes.length

/-- The score bound carried through a detection pass: every entry is at
most 100, and an entry whose product still has an unprocessed dns rule in
`fps` is at most 80 (so the uncapped `score += 20` cannot exceed 100). -/
def scoreInv (fps : List Fingerprint) (m : DMap) : Prop :=
  ∀ p ∈ m, (Prod.snd p).score ≤ 100 ∧
    (∀ fp ∈ fps, fp.name = p.1 → fp.dns ≠ [] → (Prod.snd p).score ≤ 80)

/-! ### Concrete inputs used by witnesses and counterexamples -/

/-- An empty product-url table (witness instantiation). -/
def pu0 : String → Option String :=
  fun _ => none

/-- A detected Stripe record (witness input). -/
def pd0 : DetectedProduct :=
  { name := "Stripe"
    category := "Payments"
    confidence := .medium
    score := 40
    evidence := ["script: https://js.stripe.com/v3"]
    url := some "https://stripe.com"
    source := "website_detection" }

/-- An inferred Stripe claim, lowercase spelling, with evidence. -/
def q1 : InferredProduct :=
  { name := "stripe"
    category := "Payments"
    url := none
    confidence := .low
    source := "job posting"
    evidence := some "mentions Stripe" }

/-- A second inferred Stripe claim with a different source. -/
def q2 : InferredProduct :=
  { name := "Stripe"
    category := "Payments"
    url := none
    confidence := .low
    source := "G2 review"
    evidence := none }

/-- A high-confidence inferred product (web-route sort counterexample). -/
def qAlpha : InferredProduct :=
  { name := "Alpha"
    category := "X"
    url := none
    confidence := .high
    source := "s1"
    evidence := none }

/-- A medium-confidence inferred product (web-route sort counterexample). -/
def qBeta : InferredProduct :=
  { name := "Beta"
    category := "X"
    url := none
    confidence := .medium
    source := "s2"
    evidence := none }

/-- A successful result whose cost is present but zero (JS-falsy). -/
def rZeroCost : ScoredResult :=
  { success := true, score := some { vulnerability_score := some 8, estimated_annual_cost := some 0 } }

/-- A successful result with no score object at all. -/
def rNoScore : ScoredResult :=
  { success := true, score := none }

/-- The spec's worked example: vulnerable and costed. -/
def rVuln : ScoredResult :=
  { success := true, score := some { vulnerability_score := some 8, estimated_annual_cost := some 50000 } }

/-- The spec's worked example: below the threshold. -/
def rSafe : ScoredResult :=
  { success := true, score := some { vulnerability_score := some 3, estimated_annual_cost := some 20000 } }

/-- A successful result whose vulnerability-score field is absent. -/
def rNoVuln : ScoredResult :=
  { success := true, score := some { vulnerability_score := none, estimated_annual_cost := some 5000 } }

/-- A minimal Stripe fingerprint (witness input): one script rule and one
global rule. -/
def fpStripe : Fingerprint :=
  { name := "Stripe"
    scripts := [fun s => s == "https://js.stripe.com/v3"]
    globals := [("Stripe", fun s => s == "var stripe = Stripe(pk)")]
    meta := []
    headers := []
    iframes := []
    dns := [] }

/-- Page evidence matching only the Stripe script rule. -/
def evStripe : PageEvidence :=
  { scripts := ["https://js.stripe.com/v3"]
    inlineScripts := []
    iframes := []
    metaContent := []
    headers := [] }

/-- A minimal Salesforce fingerprint (witness input): two script rules and
one dns rule, the shape under which DNS corroboration reaches 100. -/
def fpSalesforce : Fingerprint :=
  { name := "Salesforce"
    scripts := [fun s => s == "https://a.salesforce.com/x.js",
                fun s => s == "https://b.force.com/y.js"]
    globals := []
    meta := []
    headers := []
    iframes := []
    dns := [fun s => strContainsCI s "salesforce"] }

/-- Page evidence matching both Salesforce script rules. -/
def evSalesforce : PageEvidence :=
  { scripts := ["https://a.salesforce.com/x.js", "https://b.force.com/y.js"]
    inlineScripts := []
    iframes := []
    metaContent := []
    headers := [] }

end SaasScan

namespace SaasScan

/-! ### Association-map lemmas -/

theorem getA_setA_self {α : Type} :
    ∀ (m : List (String × α)) (k : String) (v : α),
      getA (setA m k v) k = some v := by
  intro m
  induction m with
  | nil =>
      intro k v
      simp [setA, getA]
  | cons p m ih =>
      obtain ⟨a, b⟩ := p
      intro k v
      by_cases h : a = k
      · simp [setA, h, getA]
      · simp [setA, h, getA, ih]

theorem getA_setA_ne {α : Type} :
    ∀ (m : List (String × α)) (k k2 : String) (v : α),
      k2 ≠ k → getA (setA m k v) k2 = getA m k2 := by
  intro m
  induction m with
  | nil =>
      intro k k2 v h
      simp only [setA, getA]
      rw [if_neg (fun he => h he.symm)]
  | cons p m ih =>
      obtain ⟨a, b⟩ := p
      intro k k2 v h
      by_cases ha : a = k
      · subst ha
        simp only [setA, if_pos rfl, getA]
        rw [if_neg (fun he => h he.symm), if_neg (fun he => h he.symm)]
      · simp only [setA, if_neg ha, getA]
        by_cases ha2 : a = k2
        · rw [if_pos ha2, if_pos ha2]
        · rw [if_neg ha2, if_neg ha2]
          exact ih k k2 v h

theorem getA_setA_cases {α : Type} (m : List (String × α)) (k key : String)
    (v w : α) (h : getA (setA m key v) k = some w) :
    (k = key ∧ w = v) ∨ getA m k = some w := by
  by_cases hk : k = key
  · subst hk
    rw [getA_setA_self] at h
    cases h
    exact Or.inl ⟨rfl, rfl⟩
  · rw [getA_setA_ne m key k v hk] at h
    exact Or.inr h

theorem mem_of_getA {α : Type} :
    ∀ (m : List (String × α)) (k : String) (v : α),
      getA m k = some v → (k, v) ∈ m := by
  intro m
  induction m with
  | nil =>
      intro k v h
      simp [getA] at h
  | cons p m ih =>
      obtain ⟨a, b⟩ := p
      intro k v h
      unfold getA at h
      by_cases hk : a = k
      · subst hk
        rw [if_pos rfl] at h
        cases h
        exact List.mem_cons_self _ _
      · rw [if_neg hk] at h
        exact List.mem_cons_of_mem _ (ih k v h)

theorem mem_setA {α : Type} :
    ∀ (m : List (String × α)) (k : String) (v : α) (p : String × α),
      p ∈ setA m k v → p = (k, v) ∨ p ∈ m := by
  intro m
  induction m with
  | nil =>
      intro k v p h
      simp [setA] at h
      exact Or.inl h
  | cons hd m ih =>
      obtain ⟨a, b⟩ := hd
      intro k v p h
      unfold setA at h
      by_cases hk : a = k
      · rw [if_pos hk] at h
        rcases List.mem_cons.mp h with h | h
        · exact Or.inl h
        · exact Or.inr (List.mem_cons_of_mem _ h)
      · rw [if_neg hk] at h
        rcases List.mem_cons.mp h with h | h
        · exact Or.inr (h ▸ List.mem_cons_self _ m)
        · rcases ih k v p h with h2 | h2
          · exact Or.inl h2
          · exact Or.inr (List.mem_cons_of_mem _ h2)

/-! ### Fusion-engine lemmas -/

theorem getA_mergeStep (pu : String → Option String) (m : CMap)
    (q : InferredProduct) (k : String) (e : CombinedProduct)
    (h : getA m k = some e) :
    getA (mergeStep pu m q) k =
      some (if ikey q = k then corroborate e q else e) := by
  by_cases hk : ikey q = k
  · rw [if_pos hk]
    unfold mergeStep
    rw [hk, h]
    exact getA_setA_self m k (corroborate e q)
  · rw [if_neg hk]
    unfold mergeStep
    cases hq : getA m (ikey q) with
    | some e2 =>
        show getA (setA m (ikey q) (corroborate e2 q)) k = some e
        rw [getA_setA_ne m (ikey q) k _ (fun he => hk he.symm)]
        exact h
    | none =>
        show getA (setA m (ikey q) (inferredEntry pu q)) k = some e
        rw [getA_setA_ne m (ikey q) k _ (fun he => hk he.symm)]
        exact h

theorem fold_merge_getA (pu : String → Option String) :
    ∀ (l : List InferredProduct) (m : CMap) (k : String) (e : CombinedProduct),
      getA m k = some e →
      ∃ e2, getA (l.foldl (mergeStep pu) m) k = some e2 ∧ e2.name = e.name ∧
        e2.category = e.category ∧ e2.url = e.url ∧
        ((∃ q ∈ l, ikey q = k) → e2.confidence = .high) ∧
        (e.confidence = .high → e2.confidence = .high) ∧
        confRank e2.confidence ≤ confRank e.confidence := by
  intro l
  induction l with
  | nil =>
      intro m k e h
      exact ⟨e, h, rfl, rfl, rfl, by simp, fun h2 => h2, le_refl _⟩
  | cons q l ih =>
      intro m k e h
      have hstep := getA_mergeStep pu m q k e h
      by_cases hk : ikey q = k
      · rw [if_pos hk] at hstep
        obtain ⟨e2, h1, h2, h3, h4, _, h6, _⟩ :=
          ih (mergeStep pu m q) k (corroborate e q) hstep
        have hhigh : e2.confidence = .high := h6 rfl
        refine ⟨e2, h1, h2, h3, h4, fun _ => hhigh, fun _ => hhigh, ?_⟩
        rw [hhigh]
        exact Nat.zero_le _
      · rw [if_neg hk] at hstep
        obtain ⟨e2, h1, h2, h3, h4, h5, h6, h7⟩ :=
          ih (mergeStep pu m q) k e hstep
        refine ⟨e2, h1, h2, h3, h4, ?_, h6, h7⟩
        rintro ⟨q2, hq2, hkq2⟩
        rcases List.mem_cons.mp hq2 with rfl | hq2
        · exact absurd hkq2 hk
        · exact h5 ⟨q2, hq2, hkq2⟩

theorem seed_keyinv :
    ∀ (d : List DetectedProduct) (m : CMap),
      (∀ k e, getA m k = some e → strToLower e.name = k) →
      ∀ k e, getA (d.foldl seedStep m) k = some e → strToLower e.name = k := by
  intro d
  induction d with
  | nil =>
      intro m hm
      exact hm
  | cons p d ih =>
      intro m hm
      refine ih (seedStep m p) ?_
      intro k e h
      rcases getA_setA_cases m k (strToLower p.name) _ e h with ⟨hk, he⟩ | h2
      · rw [he, hk]
      · exact hm k e h2

theorem seed_presence :
    ∀ (d : List DetectedProduct) (m : CMap) (k : String),
      (getA m k).isSome → (getA (d.foldl seedStep m) k).isSome := by
  intro d
  induction d with
  | nil =>
      intro m k h
      exact h
  | cons p d ih =>
      intro m k h
      refine ih (seedStep m p) k ?_
      unfold seedStep
      by_cases hk : k = strToLower p.name
      · rw [hk, getA_setA_self]
        rfl
      · rw [getA_setA_ne _ _ _ _ hk]
        exact h

theorem seed_mem :
    ∀ (d : List DetectedProduct) (m : CMap) (p : DetectedProduct),
      p ∈ d → (getA (d.foldl seedStep m) (strToLower p.name)).isSome := by
  intro d
  induction d with
  | nil =>
      intro m p h
      cases h
  | cons p2 d ih =>
      intro m p h
      rcases List.mem_cons.mp h with rfl | h2
      · refine seed_presence d (seedStep m p) (strToLower p.name) ?_
        unfold seedStep
        rw [getA_setA_self]
        rfl
      · exact ih (seedStep m p2) p h2

/-- C1.  Corroboration rule: a product key present in both inputs yields a
fused record (in both the CLI engine `combineResults` and the web-route
variant `webCombine`) whose confidence is high, whatever the two inputs'
individual confidence levels were. -/
theorem corroboration_escalates_to_high (pu : String → Option String)
    (detected : List DetectedProduct) (inferred : List InferredProduct)
    (p : DetectedProduct) (q : InferredProduct)
    (hp : p ∈ detected) (hq : q ∈ inferred)
    (hk : strToLower q.name = strToLower p.name) :
    (∃ c ∈ combineResults pu detected inferred,
        strToLower c.name = strToLower p.name ∧ c.confidence = .high) ∧
    (∃ c ∈ webCombine detected inferred,
        strToLower c.name = strToLower p.name ∧ c.confidence = .high) := by
  have hki := seed_keyinv detected [] (by intro k e h; simp [getA] at h)
  constructor
  · obtain ⟨e, he⟩ := Option.isSome_iff_exists.mp (seed_mem detected [] p hp)
    obtain ⟨e2, h1, h2, _, _, h5, _, _⟩ :=
      fold_merge_getA pu inferred (detected.foldl seedStep [])
        (strToLower p.name) e he
    have hname : strToLower e2.name = strToLower p.name := by
      rw [h2]
      exact hki (strToLower p.name) e he
    have hhigh : e2.confidence = .high := h5 ⟨q, hq, hk⟩
    refine ⟨e2, ?_, hname, hhigh⟩
    unfold combineResults
    rw [List.mem_insertionSort]
    exact List.mem_map_of_mem Prod.snd (mem_of_getA _ _ _ h1)
  · obtain ⟨e, he⟩ := Option.isSome_iff_exists.mp (seed_mem detected [] p hp)
    obtain ⟨e2, h1, h2, _, _, h5, _, _⟩ :=
      fold_merge_getA (fun _ => none) inferred (detected.foldl seedStep [])
        (strToLower p.name) e he
    have hname : strToLower e2.name = strToLower p.name := by
      rw [h2]
      exact hki (strToLower p.name) e he
    have hhigh : e2.confidence = .high := h5 ⟨q, hq, hk⟩
    refine ⟨e2, ?_, hname, hhigh⟩
    unfold webCombine
    rw [List.mem_insertionSort]
    exact List.mem_map_of_mem Prod.snd (mem_of_getA _ _ _ h1)

/-- Witness for C1 at a concrete corroborated Stripe input. -/
theorem corroboration_escalates_to_high_witness :
    (∃ c ∈ combineResults pu0 [pd0] [q1],
        strToLower c.name = strToLower pd0.name ∧ c.confidence = .high) ∧
    (∃ c ∈ webCombine [pd0] [q1],
        strToLower c.name = strToLower pd0.name ∧ c.confidence = .high) :=
  corroboration_escalates_to_high pu0 [pd0] [q1] pd0 q1 (by decide) (by decide)
    (by decide)

end SaasScan

namespace SaasScan

theorem mem_mergeStep (pu : String → Option String) (m : CMap)
    (q : InferredProduct) (p : String × CombinedProduct)
    (h : p ∈ mergeStep pu m q) :
    (∃ e, getA m (ikey q) = some e ∧ p = (ikey q, corroborate e q)) ∨
      p = (ikey q, inferredEntry pu q) ∨ p ∈ m := by
  unfold mergeStep at h
  cases hq : getA m (ikey q) with
  | some e =>
      rw [hq] at h
      rcases mem_setA m (ikey q) (corroborate e q) p h with h2 | h2
      · exact Or.inl ⟨e, rfl, h2⟩
      · exact Or.inr (Or.inr h2)
  | none =>
      rw [hq] at h
      rcases mem_setA m (ikey q) (inferredEntry pu q) p h with h2 | h2
      · exact Or.inr (Or.inl h2)
      · exact Or.inr (Or.inr h2)

theorem seed_sources :
    ∀ (d : List DetectedProduct) (m : CMap),
      (∀ p ∈ m, (Prod.snd p).sources ≠ []) →
      ∀ p ∈ d.foldl seedStep m, (Prod.snd p).sources ≠ [] := by
  intro d
  induction d with
  | nil =>
      intro m hm
      exact hm
  | cons pd d ih =>
      intro m hm
      refine ih (seedStep m pd) ?_
      intro p hp
      rcases mem_setA m (strToLower pd.name) _ p hp with h2 | h2
      · rw [h2]
        simp
      · exact hm p h2

theorem merge_sources (pu : String → Option String) :
    ∀ (l : List InferredProduct) (m : CMap),
      (∀ p ∈ m, (Prod.snd p).sources ≠ []) →
      ∀ p ∈ l.foldl (mergeStep pu) m, (Prod.snd p).sources ≠ [] := by
  intro l
  induction l with
  | nil =>
      intro m hm
      exact hm
  | cons q l ih =>
      intro m hm
      refine ih (mergeStep pu m q) ?_
      intro p hp
      rcases mem_mergeStep pu m q p hp with ⟨e, _, h2⟩ | h2 | h2
      · rw [h2]
        simp [corroborate]
      · rw [h2]
        simp [inferredEntry]
      · exact hm p h2

/-- C8.  Every `CombinedProduct` produced by `combineResults` has a
non-empty `sources` list, and a merge step never lowers the confidence of
an existing entry (rank 0 = high is the top; the only update sets it). -/
theorem fusion_invariants (pu : String → Option String)
    (detected : List DetectedProduct) (inferred : List InferredProduct) :
    (∀ c ∈ combineResults pu detected inferred, c.sources ≠ []) ∧
    (∀ (m : CMap) (q : InferredProduct) (k : String) (e : CombinedProduct),
      getA m k = some e →
      ∃ e2, getA (mergeStep pu m q) k = some e2 ∧
        confRank e2.confidence ≤ confRank e.confidence) := by
  constructor
  · intro c hc
    unfold combineResults at hc
    rw [List.mem_insertionSort] at hc
    obtain ⟨p, hp, hpc⟩ := List.mem_map.mp hc
    have hsrc := merge_sources pu inferred (detected.foldl seedStep [])
      (seed_sources detected [] (by intro p2 hp2; cases hp2)) p hp
    rw [hpc] at hsrc
    exact hsrc
  · intro m q k e h
    have hstep := getA_mergeStep pu m q k e h
    by_cases hk : ikey q = k
    · rw [if_pos hk] at hstep
      refine ⟨corroborate e q, hstep, ?_⟩
      show confRank .high ≤ confRank e.confidence
      exact Nat.zero_le _
    · rw [if_neg hk] at hstep
      exact ⟨e, hstep, le_refl _⟩

/-- Witness for C8 at a concrete input. -/
theorem fusion_invariants_witness :
    ({ name := "Stripe"
       category := "Payments"
       url := some "https://stripe.com"
       confidence := .high
       sources := ["website_detection", "job posting"]
       evidence := ["script: https://js.stripe.com/v3", "mentions Stripe"] } :
        CombinedProduct).sources ≠ [] ∧
    (∃ e2, getA (mergeStep pu0 (List.foldl seedStep [] [pd0]) q1) "stripe" = some e2 ∧
      confRank e2.confidence ≤
        confRank (Confidence.medium : Confidence)) := by
  constructor
  · exact (fusion_invariants pu0 [pd0] [q1]).1 _ (by decide)
  · have h := (fusion_invariants pu0 [pd0] [q1]).2 (List.foldl seedStep [] [pd0]) q1
      "stripe"
      { name := "Stripe"
        category := "Payments"
        url := some "https://stripe.com"
        confidence := .medium
        sources := ["website_detection"]
        evidence := ["script: https://js.stripe.com/v3"] }
      (by decide)
    exact h

/-- C10.  A merge into an existing entry changes only `confidence`,
`sources` and `evidence`: the seeded `name`, `category` and `url` are kept
and the inferred product contributes only its source string and evidence
text; every other key of the map is untouched. -/
theorem merge_frame (pu : String → Option String) (m : CMap)
    (q : InferredProduct) (e : CombinedProduct)
    (h : getA m (ikey q) = some e) :
    (∃ e2, getA (mergeStep pu m q) (ikey q) = some e2 ∧
      e2.name = e.name ∧ e2.category = e.category ∧ e2.url = e.url ∧
      e2.confidence = .high ∧ e2.sources = e.sources ++ [q.source] ∧
      e2.evidence = e.evidence ++ evContrib q) ∧
    (∀ k, k ≠ ikey q → getA (mergeStep pu m q) k = getA m k) := by
  constructor
  · have hstep := getA_mergeStep pu m q (ikey q) e h
    rw [if_pos rfl] at hstep
    exact ⟨corroborate e q, hstep, rfl, rfl, rfl, rfl, rfl, rfl⟩
  · intro k hk
    unfold mergeStep
    rw [h]
    show getA (setA m (ikey q) (corroborate e q)) k = getA m k
    exact getA_setA_ne m (ikey q) k _ hk

/-- Witness for C10 at a concrete input. -/
theorem merge_frame_witness :
    (∃ e2, getA (mergeStep pu0 (List.foldl seedStep [] [pd0]) q1) (ikey q1) = some e2 ∧
      e2.name = "Stripe" ∧ e2.category = "Payments" ∧
      e2.url = some "https://stripe.com" ∧
      e2.confidence = .high ∧
      e2.sources = ["website_detection"] ++ [q1.source] ∧
      e2.evidence = ["script: https://js.stripe.com/v3"] ++ evContrib q1) ∧
    (∀ k, k ≠ ikey q1 →
      getA (mergeStep pu0 (List.foldl seedStep [] [pd0]) q1) k =
        getA (List.foldl seedStep [] [pd0]) k) :=
  merge_frame pu0 (List.foldl seedStep [] [pd0]) q1
    { name := "Stripe"
      category := "Payments"
      url := some "https://stripe.com"
      confidence := .medium
      sources := ["website_detection"]
      evidence := ["script: https://js.stripe.com/v3"] }
    (by decide)

end SaasScan

namespace SaasScan

/-! ### Savings-aggregator lemmas -/

theorem savingsLoop_ok :
    ∀ (scores : List ScoredResult) (acc : Int × Nat),
      (∀ r ∈ scores, r.success = true → r.score.isSome) →
      savingsLoop acc scores =
        .ok (acc.1 + specTotal scores,
             acc.2 + (scores.filter negotiable).length) := by
  intro scores
  induction scores with
  | nil =>
      intro acc h
      simp [savingsLoop, specTotal]
  | cons r rest ih =>
      intro acc h
      have hrest : ∀ r2 ∈ rest, r2.success = true → r2.score.isSome :=
        fun r2 h2 => h r2 (List.mem_cons_of_mem _ h2)
      by_cases hs : r.success = true
      · cases hsc : r.score with
        | none =>
            have hsome := h r (List.mem_cons_self r rest) hs
            rw [hsc] at hsome
            simp at hsome
        | some s =>
            by_cases hc : contributes s = true
            · have hstep : savingsStep acc r =
                  .ok (acc.1 + s.estimated_annual_cost.getD 0, acc.2 + 1) := by
                simp [savingsStep, hs, hsc, hc]
              have hneg : negotiable r = true := by
                simp [negotiable, hs, hsc, hc]
              have hloop : savingsLoop acc (r :: rest) =
                  savingsLoop (acc.1 + s.estimated_annual_cost.getD 0, acc.2 + 1) rest := by
                show (match savingsStep acc r with
                      | .ok acc2 => savingsLoop acc2 rest
                      | .error e => Except.error e) =
                    savingsLoop (acc.1 + s.estimated_annual_cost.getD 0, acc.2 + 1) rest
                rw [hstep]
              rw [hloop, ih _ hrest]
              have hspec : specTotal (r :: rest) =
                  s.estimated_annual_cost.getD 0 + specTotal rest := by
                simp [specTotal, List.filter_cons_of_pos, hneg, costOf, hsc]
              rw [hspec, List.filter_cons_of_pos hneg]
              refine congrArg Except.ok ?_
              rw [Prod.mk.injEq]
              constructor
              · ring
              · simp only [List.length_cons]
                omega
            · simp only [Bool.not_eq_true] at hc
              have hstep : savingsStep acc r = .ok acc := by
                simp [savingsStep, hs, hsc, hc]
              have hneg : negotiable r = false := by
                simp [negotiable, hs, hsc, hc]
              have hloop : savingsLoop acc (r :: rest) = savingsLoop acc rest := by
                show (match savingsStep acc r with
                      | .ok acc2 => savingsLoop acc2 rest
                      | .error e => Except.error e) = savingsLoop acc rest
                rw [hstep]
              rw [hloop, ih _ hrest]
              have hspec : specTotal (r :: rest) = specTotal rest := by
                simp [specTotal, List.filter_cons_of_neg, hneg]
              rw [hspec, List.filter_cons_of_neg (by simp [hneg])]
      · have hsf : r.success = false := by
          cases hb : r.success with
          | true => exact absurd hb hs
          | false => rfl
        have hstep : savingsStep acc r = .ok acc := by
          unfold savingsStep
          rw [if_neg]
          rw [hsf]
          simp
        have hneg : negotiable r = false := by
          simp [negotiable, hsf]
        have hloop : savingsLoop acc (r :: rest) = savingsLoop acc rest := by
          show (match savingsStep acc r with
                | .ok acc2 => savingsLoop acc2 rest
                | .error e => Except.error e) = savingsLoop acc rest
          rw [hstep]
        rw [hloop, ih _ hrest]
        have hspec : specTotal (r :: rest) = specTotal rest := by
          simp [specTotal, List.filter_cons_of_neg, hneg]
        rw [hspec, List.filter_cons_of_neg (by simp [hneg])]

end SaasScan

namespace SaasScan

/-- C4 (amended).  For well-formed inputs (every successful result carries
a score object), `calculateSavings` returns exactly the summary computed
from the negotiable results — those successful, with vulnerability score
at least 6 and a cost that is non-null AND non-zero (the JS truthiness
test `score.estimated_annual_cost`) — with
`potentialSavings = round(total * discountPercent / 100)`; and a result
with `success:false` never contributes to any field. -/
theorem calculateSavings_characterization (scores : List ScoredResult) (dp : ℚ)
    (h : ∀ r ∈ scores, r.success = true → r.score.isSome) :
    calculateSavings scores dp = .ok
      { totalEstimatedCost := specTotal scores
        negotiableProducts := (scores.filter negotiable).length
        potentialSavings := round ((specTotal scores : ℚ) * (dp / 100))
        discountPercent := dp } ∧
    (∀ (r : ScoredResult) (rest : List ScoredResult), r.success = false →
      calculateSavings (r :: rest) dp = calculateSavings rest dp) := by
  constructor
  · unfold calculateSavings
    rw [savingsLoop_ok scores (0, 0) h]
    simp
  · intro r rest hr
    have hstep : savingsStep (0, 0) r = .ok (0, 0) := by
      simp [savingsStep, hr]
    unfold calculateSavings
    have hloop : savingsLoop (0, 0) (r :: rest) = savingsLoop (0, 0) rest := by
      show (match savingsStep (0, 0) r with
            | .ok acc2 => savingsLoop acc2 rest
            | .error e => Except.error e) = savingsLoop (0, 0) rest
      rw [hstep]
    rw [hloop]

/-- Counterexample to C4 as stated: a successful result with vulnerability
score 8 and a present cost of 0 should increment the claimed counter
("non-null cost"), but the code's truthiness test drops it. -/
theorem calculateSavings_zero_cost_counterexample :
    (calculateSavings [rZeroCost] 15).map (fun s => s.negotiableProducts) ≠
      Except.ok (claimedNegotiableCount [rZeroCost]) := by
  decide

/-- Witness for C4 at the spec's worked example. -/
theorem calculateSavings_characterization_witness :
    calculateSavings [rVuln, rSafe] 15 = .ok
      { totalEstimatedCost := specTotal [rVuln, rSafe]
        negotiableProducts := (List.filter negotiable [rVuln, rSafe]).length
        potentialSavings := round ((specTotal [rVuln, rSafe] : ℚ) * (15 / 100))
        discountPercent := 15 } ∧
    specTotal [rVuln, rSafe] = 50000 ∧
    (List.filter negotiable [rVuln, rSafe]).length = 1 :=
  ⟨(calculateSavings_characterization [rVuln, rSafe] 15 (by decide)).1,
    by decide, by decide⟩

/-- C5 (amended).  `calculateSavings` never throws on inputs whose
successful results all carry a score object, and a result whose score
object is present but whose vulnerability-score field is absent is
silently excluded (`undefined >= 6` is false), not an error; a successful
result with the score object itself missing, however, raises a TypeError
(see the counterexample). -/
theorem calculateSavings_failure_semantics (scores : List ScoredResult) (dp : ℚ)
    (h : ∀ r ∈ scores, r.success = true → r.score.isSome) :
    (∃ s, calculateSavings scores dp = .ok s) ∧
    (∀ (r : ScoredResult) (rest : List ScoredResult) (s2 : VScore),
      r.score = some s2 → s2.vulnerability_score = none →
      calculateSavings (r :: rest) dp = calculateSavings rest dp) := by
  constructor
  · refine ⟨{ totalEstimatedCost := specTotal scores
              negotiableProducts := (scores.filter negotiable).length
              potentialSavings := round ((specTotal scores : ℚ) * (dp / 100))
              discountPercent := dp }, ?_⟩
    unfold calculateSavings
    rw [savingsLoop_ok scores (0, 0) h]
    simp
  · intro r rest s2 hsc hvs
    have hcon : contributes s2 = false := by
      simp [contributes, hvs]
    have hstep : savingsStep (0, 0) r = .ok (0, 0) := by
      by_cases hs : r.success = true
      · simp [savingsStep, hs, hsc, hcon]
      · simp only [Bool.not_eq_true] at hs
        simp [savingsStep, hs]
    unfold calculateSavings
    have hloop : savingsLoop (0, 0) (r :: rest) = savingsLoop (0, 0) rest := by
      show (match savingsStep (0, 0) r with
            | .ok acc2 => savingsLoop acc2 rest
            | .error e => Except.error e) = savingsLoop (0, 0) rest
      rw [hstep]
    rw [hloop]

/-- Counterexample to C5 as stated: a successful result with no score
object at all makes `calculateSavings` throw (a TypeError on
`score.vulnerability_score`), rather than being excluded. -/
theorem calculateSavings_missing_score_counterexample :
    calculateSavings [rNoScore] 15 =
      .error "TypeError: cannot read vulnerability_score of undefined" := by
  decide

/-- Witness for C5 at concrete inputs: an absent vulnerability-score field
is excluded without an error. -/
theorem calculateSavings_failure_semantics_witness :
    (∃ s, calculateSavings [rNoVuln] 15 = .ok s) ∧
    calculateSavings (rNoVuln :: [rVuln]) 15 = calculateSavings [rVuln] 15 :=
  ⟨(calculateSavings_failure_semantics [rNoVuln] 15 (by decide)).1,
    (calculateSavings_failure_semantics [rVuln] 15 (by decide)).2 rNoVuln [rVuln]
      { vulnerability_score := none, estimated_annual_cost := some 5000 }
      (by decide) (by decide)⟩

end SaasScan

namespace SaasScan

/-- C3.  The CLI fusion output `combineResults` is always sorted ascending
by confidence rank with a lexicographic name tiebreak; but the web route's
comparator computes `confidenceOrder[conf] || 2`, which sends the falsy
rank 0 of "high" to 2, so at the recorded failing input the web fusion
emits the medium product before the high one (rank sequence [1, 2]) and
never consults names. -/
theorem fused_output_ordering :
    (∀ (pu : String → Option String) (detected : List DetectedProduct)
        (inferred : List InferredProduct),
      List.Sorted fuseLe (combineResults pu detected inferred)) ∧
    (webCombine [] [qAlpha, qBeta]).map (fun c => confRank c.confidence) = [1, 0] ∧
    ¬ List.Sorted fuseLe (webCombine [] [qAlpha, qBeta]) := by
  refine ⟨?_, by decide, by decide⟩
  intro pu detected inferred
  unfold combineResults
  exact List.sorted_insertionSort fuseLe _

end SaasScan

namespace SaasScan

/-! ### Structure of the merge fold (for the permutation claim) -/

theorem getA_eq_none_iff {α : Type} :
    ∀ (m : List (String × α)) (k : String),
      getA m k = none ↔ k ∉ m.map Prod.fst := by
  intro m
  induction m with
  | nil =>
      intro k
      simp [getA]
  | cons p m ih =>
      obtain ⟨a, b⟩ := p
      intro k
      unfold getA
      by_cases ha : a = k
      · subst ha
        simp
      · rw [if_neg ha, ih k]
        simp only [List.map_cons, List.mem_cons]
        constructor
        · intro h hmem
          rcases hmem with h2 | h2
          · exact ha h2.symm
          · exact h h2
        · intro h h2
          exact h (Or.inr h2)

theorem getA_of_mem_nodup {α : Type} :
    ∀ (m : List (String × α)) (k : String) (v : α),
      nodupKeys m → (k, v) ∈ m → getA m k = some v := by
  intro m
  induction m with
  | nil =>
      intro k v _ h
      cases h
  | cons p m ih =>
      obtain ⟨a, b⟩ := p
      intro k v hnd hmem
      unfold getA
      rcases List.mem_cons.mp hmem with h | h
      · cases h
        rw [if_pos rfl]
      · have hk : a ≠ k := by
          intro he
          subst he
          have hmap : a ∈ m.map Prod.fst := by
            have := List.mem_map_of_mem Prod.fst h
            exact this
          unfold nodupKeys at hnd
          simp only [List.map_cons] at hnd
          exact (List.nodup_cons.mp hnd).1 hmap
        rw [if_neg hk]
        refine ih k v ?_ h
        unfold nodupKeys at hnd ⊢
        simp only [List.map_cons] at hnd
        exact (List.nodup_cons.mp hnd).2

theorem setA_of_getA_none {α : Type} :
    ∀ (m : List (String × α)) (k : String) (v : α),
      getA m k = none → setA m k v = m ++ [(k, v)] := by
  intro m
  induction m with
  | nil =>
      intro k v _
      rfl
  | cons p m ih =>
      obtain ⟨a, b⟩ := p
      intro k v h
      unfold getA at h
      by_cases ha : a = k
      · rw [if_pos ha] at h
        cases h
      · rw [if_neg ha] at h
        unfold setA
        rw [if_neg ha, ih k v h]
        rfl

theorem map_replace_id {α : Type} (m : List (String × α)) (k : String) (v : α)
    (h : k ∉ m.map Prod.fst) :
    m.map (fun kv => if kv.1 = k then (k, v) else kv) = m := by
  refine (List.map_congr_left ?_).trans (List.map_id m)
  intro kv hkv
  show (if kv.1 = k then (k, v) else kv) = kv
  rw [if_neg]
  intro he
  exact h (he ▸ List.mem_map_of_mem Prod.fst hkv)

theorem keys_replace {α : Type} (m : List (String × α)) (k : String) (v : α) :
    (m.map (fun kv => if kv.1 = k then (k, v) else kv)).map Prod.fst =
      m.map Prod.fst := by
  rw [List.map_map]
  refine List.map_congr_left ?_
  intro kv _
  show Prod.fst (if kv.1 = k then (k, v) else kv) = kv.1
  by_cases h : kv.1 = k
  · rw [if_pos h, h]
  · rw [if_neg h]

theorem setA_of_getA_some {α : Type} :
    ∀ (m : List (String × α)) (k : String) (v e : α),
      nodupKeys m → getA m k = some e →
      setA m k v = m.map (fun kv => if kv.1 = k then (k, v) else kv) := by
  intro m
  induction m with
  | nil =>
      intro k v e _ h
      simp [getA] at h
  | cons p m ih =>
      obtain ⟨a, b⟩ := p
      intro k v e hnd h
      unfold getA at h
      have hnd2 : nodupKeys m := by
        unfold nodupKeys at hnd ⊢
        simp only [List.map_cons] at hnd
        exact (List.nodup_cons.mp hnd).2
      by_cases ha : a = k
      · subst ha
        rw [if_pos rfl] at h
        unfold setA
        rw [if_pos rfl]
        simp only [List.map_cons]
        have hmem : a ∉ m.map Prod.fst := by
          unfold nodupKeys at hnd
          simp only [List.map_cons] at hnd
          exact (List.nodup_cons.mp hnd).1
        congr 1
        exact (map_replace_id m a v hmem).symm
      · rw [if_neg ha] at h
        unfold setA
        rw [if_neg ha]
        simp only [List.map_cons]
        rw [ih k v e hnd2 h]
        congr 1
        rw [if_neg ha]

theorem nodupKeys_setA {α : Type} (m : List (String × α)) (k : String) (v : α)
    (h : nodupKeys m) : nodupKeys (setA m k v) := by
  cases hg : getA m k with
  | some e =>
      rw [setA_of_getA_some m k v e h hg]
      unfold nodupKeys
      rw [keys_replace]
      exact h
  | none =>
      rw [setA_of_getA_none m k v hg]
      unfold nodupKeys at h ⊢
      rw [List.map_append]
      rw [List.nodup_append]
      refine ⟨h, List.nodup_singleton _, ?_⟩
      intro x hx hx2
      simp only [List.map_cons, List.map_nil, List.mem_singleton] at hx2
      subst hx2
      exact (getA_eq_none_iff m x).mp hg hx

theorem nodupKeys_mergeStep (pu : String → Option String) (m : CMap)
    (q : InferredProduct) (h : nodupKeys m) : nodupKeys (mergeStep pu m q) := by
  unfold mergeStep
  cases hq : getA m (ikey q) with
  | some e => exact nodupKeys_setA m (ikey q) (corroborate e q) h
  | none => exact nodupKeys_setA m (ikey q) (inferredEntry pu q) h

theorem nodupKeys_fold_merge (pu : String → Option String) :
    ∀ (l : List InferredProduct) (m : CMap), nodupKeys m →
      nodupKeys (l.foldl (mergeStep pu) m) := by
  intro l
  induction l with
  | nil =>
      intro m h
      exact h
  | cons q l ih =>
      intro m h
      exact ih (mergeStep pu m q) (nodupKeys_mergeStep pu m q h)

theorem nodupKeys_fold_seed :
    ∀ (d : List DetectedProduct) (m : CMap), nodupKeys m →
      nodupKeys (d.foldl seedStep m) := by
  intro d
  induction d with
  | nil =>
      intro m h
      exact h
  | cons p d ih =>
      intro m h
      exact ih (seedStep m p) (nodupKeys_setA m (strToLower p.name) _ h)

theorem merge_keyinv (pu : String → Option String) :
    ∀ (l : List InferredProduct) (m : CMap),
      (∀ k e, getA m k = some e → strToLower e.name = k) →
      ∀ k e, getA (l.foldl (mergeStep pu) m) k = some e → strToLower e.name = k := by
  intro l
  induction l with
  | nil =>
      intro m hm
      exact hm
  | cons q l ih =>
      intro m hm
      refine ih (mergeStep pu m q) ?_
      intro k e h
      unfold mergeStep at h
      cases hq : getA m (ikey q) with
      | some e2 =>
          rw [hq] at h
          rcases getA_setA_cases m k (ikey q) _ e h with ⟨hk, he⟩ | h2
          · rw [he, hk]
            exact hm (ikey q) e2 hq
          · exact hm k e h2
      | none =>
          rw [hq] at h
          rcases getA_setA_cases m k (ikey q) _ e h with ⟨hk, he⟩ | h2
          · rw [he, hk]
            rfl
          · exact hm k e h2

theorem snd_inj_of_nodupKeys {α : Type} (m : List (String × α))
    (h : nodupKeys m) (k : String) (a b : α)
    (ha : (k, a) ∈ m) (hb : (k, b) ∈ m) : a = b := by
  unfold nodupKeys at h
  have h2 := List.inj_on_of_nodup_map h ha hb rfl
  exact congrArg Prod.snd h2

theorem find?_ikey_eq_none (l : List InferredProduct) (k : String)
    (h : k ∉ l.map ikey) : l.find? (fun q => ikey q == k) = none := by
  rw [List.find?_eq_none]
  intro q hq hbeq
  rw [beq_iff_eq] at hbeq
  exact h (hbeq ▸ List.mem_map_of_mem ikey hq)

theorem getA_append_single_ne {α : Type} :
    ∀ (m : List (String × α)) (k k2 : String) (v : α), k ≠ k2 →
      getA (m ++ [(k2, v)]) k = getA m k := by
  intro m
  induction m with
  | nil =>
      intro k k2 v h
      show getA [(k2, v)] k = none
      unfold getA
      rw [if_neg (fun he => h he.symm)]
      rfl
  | cons p m ih =>
      obtain ⟨a, b⟩ := p
      intro k k2 v h
      show getA ((a, b) :: (m ++ [(k2, v)])) k = getA ((a, b) :: m) k
      unfold getA
      by_cases ha : a = k
      · rw [if_pos ha, if_pos ha]
      · rw [if_neg ha, if_neg ha]
        exact ih k k2 v h

theorem getA_isNone_eq_of_keys_eq {α : Type} (m1 m2 : List (String × α))
    (h : m1.map Prod.fst = m2.map Prod.fst) (k : String) :
    (getA m1 k).isNone = (getA m2 k).isNone := by
  cases hg1 : getA m1 k with
  | some v =>
      cases hg2 : getA m2 k with
      | some w => rfl
      | none =>
          exfalso
          have h1 : k ∉ m2.map Prod.fst := (getA_eq_none_iff m2 k).mp hg2
          have h2 : (k, v) ∈ m1 := mem_of_getA m1 k v hg1
          refine h1 ?_
          rw [← h]
          exact List.mem_map_of_mem Prod.fst h2
  | none =>
      cases hg2 : getA m2 k with
      | some w =>
          exfalso
          have h1 : k ∉ m1.map Prod.fst := (getA_eq_none_iff m1 k).mp hg1
          have h2 : (k, w) ∈ m2 := mem_of_getA m2 k w hg2
          refine h1 ?_
          rw [h]
          exact List.mem_map_of_mem Prod.fst h2
      | none => rfl

end SaasScan

namespace SaasScan

theorem updOf_nil : updOf [] = id := by
  funext kv
  rfl

theorem fold_merge_closed (pu : String → Option String) :
    ∀ (l : List InferredProduct) (s : CMap), nodupKeys s → (l.map ikey).Nodup →
      l.foldl (mergeStep pu) s = updSeed l s ++ news pu s l := by
  intro l
  induction l with
  | nil =>
      intro s _ _
      show s = updSeed [] s ++ news pu s []
      rw [updSeed, updOf_nil, List.map_id]
      rw [show news pu s [] = [] from rfl, List.append_nil]
  | cons q l ih =>
      intro s hs hnd
      have hndl : (l.map ikey).Nodup := by
        simp only [List.map_cons, List.nodup_cons] at hnd
        exact hnd.2
      have hqnotin : ikey q ∉ l.map ikey := by
        simp only [List.map_cons, List.nodup_cons] at hnd
        exact hnd.1
      show l.foldl (mergeStep pu) (mergeStep pu s q) = _
      cases hq : getA s (ikey q) with
      | some e =>
          have hstep : mergeStep pu s q =
              s.map (fun kv => if kv.1 = ikey q then (ikey q, corroborate e q) else kv) := by
            unfold mergeStep
            rw [hq]
            exact setA_of_getA_some s (ikey q) (corroborate e q) e hs hq
          have hs2 : nodupKeys (mergeStep pu s q) := nodupKeys_mergeStep pu s q hs
          rw [ih (mergeStep pu s q) hs2 hndl]
          have hkeys : (mergeStep pu s q).map Prod.fst = s.map Prod.fst := by
            rw [hstep]
            exact keys_replace s (ikey q) (corroborate e q)
          have hEqB : news pu (mergeStep pu s q) l = news pu s (q :: l) := by
            unfold news
            have hfq : ((getA s (ikey q)).isNone : Bool) = false := by
              rw [hq]
              rfl
            rw [List.filter_cons_of_neg (by rw [hfq]; exact Bool.false_ne_true)]
            refine congrArg _ (List.filter_congr ?_)
            intro q2 _
            exact getA_isNone_eq_of_keys_eq _ _ hkeys (ikey q2)
          have hEqA : updSeed l (mergeStep pu s q) = updSeed (q :: l) s := by
            rw [hstep]
            unfold updSeed
            rw [List.map_map]
            refine List.map_congr_left ?_
            intro kv hkv
            show updOf l (if kv.1 = ikey q then (ikey q, corroborate e q) else kv) =
              updOf (q :: l) kv
            by_cases hkq : kv.1 = ikey q
            · rw [if_pos hkq]
              have hfind : l.find? (fun q2 => ikey q2 == ikey q) = none :=
                find?_ikey_eq_none l (ikey q) hqnotin
              have hv : kv.2 = e := by
                have hmemkv : (kv.1, kv.2) ∈ s := hkv
                rw [hkq] at hmemkv
                have := getA_of_mem_nodup s (ikey q) kv.2 hs hmemkv
                rw [hq] at this
                cases this
                rfl
              unfold updOf
              rw [hfind]
              rw [List.find?_cons_of_pos _ (by rw [beq_iff_eq]; exact hkq.symm)]
              rw [hkq, hv]
            · rw [if_neg hkq]
              unfold updOf
              rw [List.find?_cons_of_neg _ (by rw [beq_iff_eq]; exact fun he => hkq he.symm)]
          rw [hEqA, hEqB]
      | none =>
          have hstep : mergeStep pu s q = s ++ [(ikey q, inferredEntry pu q)] := by
            unfold mergeStep
            rw [hq]
            exact setA_of_getA_none s (ikey q) (inferredEntry pu q) hq
          have hs2 : nodupKeys (mergeStep pu s q) := nodupKeys_mergeStep pu s q hs
          rw [ih (mergeStep pu s q) hs2 hndl]
          have hqnotins : ikey q ∉ s.map Prod.fst := (getA_eq_none_iff s (ikey q)).mp hq
          have hEqA2 : updSeed l (mergeStep pu s q) =
              updSeed l s ++ [(ikey q, inferredEntry pu q)] := by
            rw [hstep]
            unfold updSeed
            rw [List.map_append]
            refine congrArg _ ?_
            show [updOf l (ikey q, inferredEntry pu q)] = [(ikey q, inferredEntry pu q)]
            unfold updOf
            rw [find?_ikey_eq_none l (ikey q) hqnotin]
          have hEqB2 : news pu (mergeStep pu s q) l = news pu s l := by
            unfold news
            refine congrArg _ (List.filter_congr ?_)
            intro q2 hq2
            have hne : ikey q2 ≠ ikey q := by
              intro he
              exact hqnotin (he ▸ List.mem_map_of_mem ikey hq2)
            rw [hstep]
            rw [getA_append_single_ne s (ikey q2) (ikey q) _ hne]
          have hEqC : updSeed (q :: l) s = updSeed l s := by
            unfold updSeed
            refine List.map_congr_left ?_
            intro kv hkv
            have hne : ikey q ≠ kv.1 := by
              intro he
              exact hqnotins (he ▸ List.mem_map_of_mem Prod.fst hkv)
            unfold updOf
            rw [List.find?_cons_of_neg _ (by rw [beq_iff_eq]; exact hne)]
          have hEqD : news pu s (q :: l) =
              (ikey q, inferredEntry pu q) :: news pu s l := by
            unfold news
            rw [List.filter_cons_of_pos (by rw [hq]; rfl)]
            rfl
          rw [hEqA2, hEqB2, hEqC, hEqD, List.append_assoc]
          rfl

theorem find?_perm_nodup (l1 l2 : List InferredProduct) (hperm : l1.Perm l2)
    (hnd : (l1.map ikey).Nodup) (k : String) :
    l1.find? (fun q => ikey q == k) = l2.find? (fun q => ikey q == k) := by
  cases h1 : l1.find? (fun q => ikey q == k) with
  | none =>
      cases h2 : l2.find? (fun q => ikey q == k) with
      | none => rfl
      | some q =>
          exfalso
          have hq2 := List.mem_of_find?_eq_some h2
          have hpq := List.find?_some h2
          have hq1 : q ∈ l1 := hperm.symm.subset hq2
          exact List.find?_eq_none.mp h1 q hq1 hpq
  | some q =>
      have hq1 := List.mem_of_find?_eq_some h1
      have hpq1 := List.find?_some h1
      cases h2 : l2.find? (fun q => ikey q == k) with
      | none =>
          exfalso
          exact List.find?_eq_none.mp h2 q (hperm.subset hq1) hpq1
      | some q2 =>
          have hq22 := List.mem_of_find?_eq_some h2
          have hpq2 := List.find?_some h2
          have hq2in1 : q2 ∈ l1 := hperm.symm.subset hq22
          have hkeq : ikey q = ikey q2 := by
            rw [beq_iff_eq] at hpq1 hpq2
            rw [hpq1, hpq2]
          rw [List.inj_on_of_nodup_map hnd hq1 hq2in1 hkeq]

theorem sorted_perm_eq {α : Type} (r : α → α → Prop) :
    ∀ (l1 l2 : List α), l1.Perm l2 → l1.Sorted r → l2.Sorted r →
      (∀ a ∈ l1, ∀ b ∈ l1, r a b → r b a → a = b) → l1 = l2 := by
  intro l1
  induction l1 with
  | nil =>
      intro l2 hperm _ _ _
      rw [hperm.symm.eq_nil]
  | cons a t1 ih =>
      intro l2 hperm h1 h2 hcond
      cases l2 with
      | nil =>
          exact absurd hperm.eq_nil (by simp)
      | cons b t2 =>
          have hab : a = b := by
            have hainl2 : a ∈ b :: t2 := hperm.subset (List.mem_cons_self a t1)
            have hbinl1 : b ∈ a :: t1 := hperm.symm.subset (List.mem_cons_self b t2)
            rcases List.mem_cons.mp hainl2 with h | hat2
            · exact h
            rcases List.mem_cons.mp hbinl1 with h | hbt1
            · exact h.symm
            have hrab : r a b := List.rel_of_sorted_cons h1 b hbt1
            have hrba : r b a := List.rel_of_sorted_cons h2 a hat2
            exact hcond a (List.mem_cons_self a t1) b (List.mem_cons_of_mem a hbt1)
              hrab hrba
          subst hab
          have hpt : t1.Perm t2 := hperm.cons_inv
          have ht1 : t1.Sorted r := h1.of_cons
          have ht2 : t2.Sorted r := h2.of_cons
          rw [ih t2 hpt ht1 ht2 ?_]
          intro x hx y hy hxy hyx
          exact hcond x (List.mem_cons_of_mem a hx) y (List.mem_cons_of_mem a hy)
            hxy hyx

end SaasScan

namespace SaasScan

/-- C2 (amended).  Fusion is commutative with respect to the order of the
`inferred` array provided the inferred products' lowercase keys are
pairwise distinct: permuting such a list yields an identical
`combineResults` output, records and ordering included.  (With duplicate
keys the appended `sources`/`evidence` order follows input order, see the
counterexample.) -/
theorem fuse_perm_invariant (pu : String → Option String)
    (detected : List DetectedProduct) (l1 l2 : List InferredProduct)
    (hperm : l1.Perm l2) (hnd : (l1.map ikey).Nodup) :
    combineResults pu detected l1 = combineResults pu detected l2 := by
  have hs : nodupKeys (detected.foldl seedStep []) :=
    nodupKeys_fold_seed detected [] (by unfold nodupKeys; exact List.nodup_nil)
  have hnd2 : (l2.map ikey).Nodup := (hperm.map ikey).nodup_iff.mp hnd
  have hm1 := fold_merge_closed pu l1 (detected.foldl seedStep []) hs hnd
  have hm2 := fold_merge_closed pu l2 (detected.foldl seedStep []) hs hnd2
  have hup : updSeed l1 (detected.foldl seedStep []) =
      updSeed l2 (detected.foldl seedStep []) := by
    unfold updSeed
    refine List.map_congr_left ?_
    intro kv _
    unfold updOf
    rw [find?_perm_nodup l1 l2 hperm hnd kv.1]
  have hperm2 : (l1.foldl (mergeStep pu) (detected.foldl seedStep [])).Perm
      (l2.foldl (mergeStep pu) (detected.foldl seedStep [])) := by
    rw [hm1, hm2, hup]
    refine List.Perm.append_left _ ?_
    unfold news
    exact (hperm.filter _).map _
  have hndm : nodupKeys (l1.foldl (mergeStep pu) (detected.foldl seedStep [])) :=
    nodupKeys_fold_merge pu l1 _ hs
  have hki := merge_keyinv pu l1 (detected.foldl seedStep [])
    (seed_keyinv detected [] (by intro k e h; simp [getA] at h))
  unfold combineResults
  refine sorted_perm_eq fuseLe _ _ ?_ ?_ ?_ ?_
  · exact ((List.perm_insertionSort fuseLe _).trans (hperm2.map Prod.snd)).trans
      (List.perm_insertionSort fuseLe _).symm
  · exact List.sorted_insertionSort fuseLe _
  · exact List.sorted_insertionSort fuseLe _
  · intro a ha b hb hab hba
    rw [List.mem_insertionSort] at ha hb
    obtain ⟨pa, hpa, hsa⟩ := List.mem_map.mp ha
    obtain ⟨pb, hpb, hsb⟩ := List.mem_map.mp hb
    have hname : a.name = b.name := by
      rcases hab with h1 | ⟨h1, h1n⟩
      · rcases hba with h2 | ⟨h2, _⟩
        · exact absurd (h1.trans h2) (lt_irrefl _)
        · rw [h2] at h1
          exact absurd h1 (lt_irrefl _)
      · rcases hba with h2 | ⟨h2, h2n⟩
        · rw [h1] at h2
          exact absurd h2 (lt_irrefl _)
        · exact le_antisymm h1n h2n
    have hka : strToLower pa.2.name = pa.1 :=
      hki pa.1 pa.2 (getA_of_mem_nodup _ pa.1 pa.2 hndm hpa)
    have hkb : strToLower pb.2.name = pb.1 :=
      hki pb.1 pb.2 (getA_of_mem_nodup _ pb.1 pb.2 hndm hpb)
    have hkeq : pa.1 = pb.1 := by
      rw [← hka, ← hkb, hsa, hsb, hname]
    have hpair : pa.2 = pb.2 := by
      refine snd_inj_of_nodupKeys _ hndm pa.1 pa.2 pb.2 hpa ?_
      rw [hkeq]
      exact hpb
    rw [← hsa, ← hsb, hpair]

/-- Counterexample to C2 as stated: two inferred records share the key
"stripe" (which also exists in `detected`) with different sources;
permuting them permutes the fused record's `sources` and `evidence`
lists, so the outputs differ. -/
theorem fuse_perm_counterexample :
    combineResults pu0 [pd0] [q1, q2] ≠ combineResults pu0 [pd0] [q2, q1] := by
  decide

/-- Witness for the amended C2 at a concrete input with distinct keys. -/
theorem fuse_perm_invariant_witness :
    combineResults pu0 [pd0] [qAlpha, qBeta] =
      combineResults pu0 [pd0] [qBeta, qAlpha] :=
  fuse_perm_invariant pu0 [pd0] [qAlpha, qBeta] [qBeta, qAlpha]
    (List.Perm.swap qBeta qAlpha []) (by decide)

end SaasScan

namespace SaasScan

/-! ### Fingerprint-matcher lemmas -/

theorem scanKind_score {ρ : Type} (w : Nat) (test : ρ → Option String) :
    ∀ ps : List ρ,
      (scanKind w test ps).1 =
        w * (ps.filter (fun p => (test p).isSome)).length := by
  intro ps
  induction ps with
  | nil => rfl
  | cons p ps ih =>
      unfold scanKind
      cases ht : test p with
      | some e =>
          rw [List.filter_cons_of_pos (by rw [ht]; rfl)]
          simp only [List.length_cons]
          rw [ih]
          ring
      | none =>
          rw [List.filter_cons_of_neg (by rw [ht]; simp)]
          exact ih

theorem find?_isSome_eq_any {α : Type} (p : α → Bool) (l : List α) :
    (l.find? p).isSome = l.any p := by
  cases h : l.find? p with
  | some a =>
      have h1 := List.mem_of_find?_eq_some h
      have h2 := List.find?_some h
      show true = l.any p
      symm
      rw [List.any_eq_true]
      exact ⟨a, h1, h2⟩
  | none =>
      show false = l.any p
      symm
      rw [List.any_eq_false]
      intro x hx
      exact List.find?_eq_none.mp h x hx

theorem isSome_option_map {α β : Type} (f : α → β) (o : Option α) :
    (o.map f).isSome = o.isSome := by
  cases o with
  | some a => rfl
  | none => rfl

theorem scriptTest_isSome (ev : PageEvidence) (p : Pattern) :
    (scriptTest ev p).isSome = ev.scripts.any p := by
  unfold scriptTest
  rw [isSome_option_map]
  exact find?_isSome_eq_any p ev.scripts

theorem globalTest_isSome (ev : PageEvidence) (gp : String × Pattern) :
    (globalTest ev gp).isSome =
      ev.inlineScripts.any (fun s => !(s == "") && gp.2 s) := by
  unfold globalTest
  by_cases h : ev.inlineScripts.any (fun s => !(s == "") && gp.2 s) = true
  · rw [if_pos h, h]
    rfl
  · rw [if_neg h]
    simp only [Bool.not_eq_true] at h
    rw [h]
    rfl

theorem metaTest_isSome (ev : PageEvidence) (p : Pattern) :
    (metaTest ev p).isSome = ev.metaContent.any p := by
  unfold metaTest
  rw [isSome_option_map]
  exact find?_isSome_eq_any p ev.metaContent

theorem headerTest_isSome (ev : PageEvidence) (p : Pattern) :
    (headerTest ev p).isSome = ev.headers.any (fun kv => p kv.1 || p kv.2) := by
  unfold headerTest
  rw [isSome_option_map]
  exact find?_isSome_eq_any _ ev.headers

theorem iframeTest_isSome (ev : PageEvidence) (p : Pattern) :
    (iframeTest ev p).isSome = ev.iframes.any (fun s => !(s == "") && p s) := by
  unfold iframeTest
  rw [isSome_option_map]
  exact find?_isSome_eq_any _ ev.iframes

theorem websiteScoreEv_score (fp : Fingerprint) (ev : PageEvidence) :
    (websiteScoreEv fp ev).1 =
      40 * matchedScripts fp ev + 30 * matchedGlobals fp ev +
        20 * matchedMeta fp ev + 25 * matchedHeaders fp ev +
        35 * matchedIframes fp ev := by
  show (scanKind 40 (scriptTest ev) fp.scripts).1 +
      (scanKind 30 (globalTest ev) fp.globals).1 +
      (scanKind 20 (metaTest ev) fp.meta).1 +
      (scanKind 25 (headerTest ev) fp.headers).1 +
      (scanKind 35 (iframeTest ev) fp.iframes).1 = _
  rw [scanKind_score, scanKind_score, scanKind_score, scanKind_score,
    scanKind_score]
  unfold matchedScripts matchedGlobals matchedMeta matchedHeaders matchedIframes
  rw [List.filter_congr (fun p _ => scriptTest_isSome ev p),
    List.filter_congr (fun gp _ => globalTest_isSome ev gp),
    List.filter_congr (fun p _ => metaTest_isSome ev p),
    List.filter_congr (fun p _ => headerTest_isSome ev p),
    List.filter_congr (fun p _ => iframeTest_isSome ev p)]

/-- C6.  Single-rule detection: (i) the accumulated website score counts
each rule once per kind at its kind weight, however many evidence items
match it; (ii) when exactly one rule of the fingerprint matches, the
product is emitted with score equal to that rule's kind weight
(script=40, global=30, header=25, iframe=35, meta=20) and the confidence
bucketed from the score (at least 60 high, at least 30 medium, else low);
(iii) a product whose score accumulates to 0 is not emitted. -/
theorem single_rule_detection :
    (∀ (fp : Fingerprint) (ev : PageEvidence),
      (websiteScoreEv fp ev).1 =
        40 * matchedScripts fp ev + 30 * matchedGlobals fp ev +
          20 * matchedMeta fp ev + 25 * matchedHeaders fp ev +
          35 * matchedIframes fp ev) ∧
    (∀ (pu : String → Option String) (fp : Fingerprint) (ev : PageEvidence),
      matchedTotal fp ev = 1 →
      ∃ dp, detectProductW pu fp ev = some dp ∧
        dp.score = 40 * matchedScripts fp ev + 30 * matchedGlobals fp ev +
          20 * matchedMeta fp ev + 25 * matchedHeaders fp ev +
          35 * matchedIframes fp ev ∧
        dp.confidence = confBucket dp.score) ∧
    (∀ (pu : String → Option String) (fp : Fingerprint) (ev : PageEvidence),
      (websiteScoreEv fp ev).1 = 0 → detectProductW pu fp ev = none) := by
  refine ⟨websiteScoreEv_score, ?_, ?_⟩
  · intro pu fp ev hmt
    unfold matchedTotal at hmt
    have hW := websiteScoreEv_score fp ev
    have hpos : (websiteScoreEv fp ev).1 > 0 := by
      rw [hW]
      omega
    have hle : (websiteScoreEv fp ev).1 ≤ 100 := by
      rw [hW]
      omega
    have hmin : min (websiteScoreEv fp ev).1 100 = (websiteScoreEv fp ev).1 :=
      Nat.min_eq_left hle
    unfold detectProductW
    rw [if_pos hpos]
    refine ⟨_, rfl, ?_, ?_⟩
    · show min (websiteScoreEv fp ev).1 100 = _
      rw [hmin, hW]
    · show confBucket (websiteScoreEv fp ev).1 =
        confBucket (min (websiteScoreEv fp ev).1 100)
      rw [hmin]
  · intro pu fp ev h0
    unfold detectProductW
    rw [if_neg]
    omega

/-- Witness for C6: a fingerprint with one script rule and one global
rule, on evidence matching only the script rule, is emitted at score 40
and confidence medium. -/
theorem single_rule_detection_witness :
    matchedTotal fpStripe evStripe = 1 ∧
    (∃ dp, detectProductW pu0 fpStripe evStripe = some dp ∧
      dp.score = 40 * matchedScripts fpStripe evStripe +
        30 * matchedGlobals fpStripe evStripe +
        20 * matchedMeta fpStripe evStripe +
        25 * matchedHeaders fpStripe evStripe +
        35 * matchedIframes fpStripe evStripe ∧
      dp.confidence = confBucket dp.score) :=
  ⟨by decide, single_rule_detection.2.1 pu0 fpStripe evStripe (by decide)⟩

end SaasScan

namespace SaasScan

/-! ### Score-range lemmas (C7) -/

theorem websiteScoreEv_le_maxWeight (fp : Fingerprint) (ev : PageEvidence) :
    (websiteScoreEv fp ev).1 ≤ maxWeight fp := by
  rw [websiteScoreEv_score]
  unfold maxWeight matchedScripts matchedGlobals matchedMeta matchedHeaders
    matchedIframes
  have h1 := List.length_filter_le (fun p => ev.scripts.any p) fp.scripts
  have h2 := List.length_filter_le
    (fun gp : String × Pattern =>
      ev.inlineScripts.any (fun s => !(s == "") && gp.2 s)) fp.globals
  have h3 := List.length_filter_le (fun p => ev.metaContent.any p) fp.meta
  have h4 := List.length_filter_le
    (fun p : Pattern => ev.headers.any (fun kv => p kv.1 || p kv.2)) fp.headers
  have h5 := List.length_filter_le
    (fun p : Pattern => ev.iframes.any (fun s => !(s == "") && p s)) fp.iframes
  refine Nat.add_le_add (Nat.add_le_add (Nat.add_le_add (Nat.add_le_add ?_ ?_) ?_) ?_) ?_
  · exact Nat.mul_le_mul_left 40 h1
  · exact Nat.mul_le_mul_left 30 h2
  · exact Nat.mul_le_mul_left 20 h3
  · exact Nat.mul_le_mul_left 25 h4
  · exact Nat.mul_le_mul_left 35 h5

theorem website_fold_scoreInv (pu : String → Option String) (ev : PageEvidence)
    (catalog : List Fingerprint)
    (hnd : (catalog.map Fingerprint.name).Nodup)
    (hmax : ∀ fp ∈ catalog, fp.dns ≠ [] → maxWeight fp ≤ 80) :
    ∀ (fps : List Fingerprint), (∀ fp ∈ fps, fp ∈ catalog) →
      ∀ (m : DMap), scoreInv catalog m →
        scoreInv catalog (fps.foldl (websiteStep pu ev) m) := by
  intro fps
  induction fps with
  | nil =>
      intro _ m hm
      exact hm
  | cons fp1 fps ih =>
      intro hsub m hm
      refine ih (fun fp hfp => hsub fp (List.mem_cons_of_mem _ hfp))
        (websiteStep pu ev m fp1) ?_
      intro p hp
      unfold websiteStep at hp
      cases hdp : detectProductW pu fp1 ev with
      | none =>
          rw [hdp] at hp
          exact hm p hp
      | some dp =>
          rw [hdp] at hp
          rcases mem_setA m fp1.name dp p hp with h2 | h2
          · subst h2
            unfold detectProductW at hdp
            by_cases hpos : (websiteScoreEv fp1 ev).1 > 0
            · rw [if_pos hpos] at hdp
              cases hdp
              constructor
              · show min (websiteScoreEv fp1 ev).1 100 ≤ 100
                exact Nat.min_le_right _ _
              · intro fp hfp hname hdns
                have hfp1cat : fp1 ∈ catalog := hsub fp1 (List.mem_cons_self _ _)
                have heq : fp = fp1 :=
                  List.inj_on_of_nodup_map hnd hfp hfp1cat hname
                subst heq
                have hb := hmax fp hfp hdns
                show min (websiteScoreEv fp ev).1 100 ≤ 80
                calc min (websiteScoreEv fp ev).1 100
                    ≤ (websiteScoreEv fp ev).1 := Nat.min_le_left _ _
                  _ ≤ maxWeight fp := websiteScoreEv_le_maxWeight fp ev
                  _ ≤ 80 := hb
            · rw [if_neg hpos] at hdp
              cases hdp
          · exact hm p h2

theorem dns_fold_le (pu : String → Option String) (dnsContent : String) :
    ∀ (fps : List Fingerprint) (m : DMap),
      (fps.map Fingerprint.name).Nodup → scoreInv fps m →
      ∀ p ∈ fps.foldl (dnsStep pu dnsContent) m, (Prod.snd p).score ≤ 100 := by
  intro fps
  induction fps with
  | nil =>
      intro m _ hm p hp
      exact (hm p hp).1
  | cons fp1 fps ih =>
      intro m hnd hm
      have hnd2 : (fps.map Fingerprint.name).Nodup := by
        simp only [List.map_cons, List.nodup_cons] at hnd
        exact hnd.2
      have hnotin : fp1.name ∉ fps.map Fingerprint.name := by
        simp only [List.map_cons, List.nodup_cons] at hnd
        exact hnd.1
      refine ih (dnsStep pu dnsContent m fp1) hnd2 ?_
      intro p hp
      unfold dnsStep at hp
      by_cases hmatch : fp1.dns.any (fun pt => pt dnsContent) = true
      · rw [if_pos hmatch] at hp
        cases hg : getA m fp1.name with
        | some e =>
            rw [hg] at hp
            have hdns1 : fp1.dns ≠ [] := by
              intro he
              rw [he] at hmatch
              simp at hmatch
            have hmem := mem_of_getA m fp1.name e hg
            have he80 : e.score ≤ 80 :=
              (hm _ hmem).2 fp1 (List.mem_cons_self _ _) rfl hdns1
            rcases mem_setA m fp1.name _ p hp with h2 | h2
            · subst h2
              constructor
              · show e.score + 20 ≤ 100
                omega
              · intro fp hfp hname _
                exfalso
                refine hnotin ?_
                have : fp.name ∈ fps.map Fingerprint.name :=
                  List.mem_map_of_mem Fingerprint.name hfp
                rw [hname] at this
                exact this
            · exact ⟨(hm p h2).1,
                fun fp hfp h1 h2b => (hm p h2).2 fp (List.mem_cons_of_mem _ hfp) h1 h2b⟩
        | none =>
            rw [hg] at hp
            rcases mem_setA m fp1.name _ p hp with h2 | h2
            · subst h2
              constructor
              · show (30 : Nat) ≤ 100
                omega
              · intro fp hfp hname hd
                show (30 : Nat) ≤ 80
                omega
            · exact ⟨(hm p h2).1,
                fun fp hfp h1 h2b => (hm p h2).2 fp (List.mem_cons_of_mem _ hfp) h1 h2b⟩
      · rw [if_neg hmatch] at hp
        exact ⟨(hm p hp).1,
          fun fp hfp h1 h2b => (hm p hp).2 fp (List.mem_cons_of_mem _ hfp) h1 h2b⟩

theorem mailGoogle_le (m : DMap) (mx : String)
    (hm : ∀ p ∈ m, (Prod.snd p).score ≤ 100) :
    ∀ p ∈ mailGoogle m mx, (Prod.snd p).score ≤ 100 := by
  intro p hp
  unfold mailGoogle at hp
  by_cases hg : mxIsGoogle mx = true
  · rw [if_pos hg] at hp
    rcases mem_setA _ _ _ p hp with h2 | h2
    · subst h2
      show (80 : Nat) ≤ 100
      omega
    · exact hm p h2
  · rw [if_neg hg] at hp
    exact hm p hp

theorem mailStep_le (m : DMap) (mx : String)
    (hm : ∀ p ∈ m, (Prod.snd p).score ≤ 100) :
    ∀ p ∈ mailStep m mx, (Prod.snd p).score ≤ 100 := by
  intro p hp
  unfold mailStep at hp
  by_cases hms : mxIsMicrosoft mx = true
  · rw [if_pos hms] at hp
    rcases mem_setA _ _ _ p hp with h2 | h2
    · subst h2
      show (80 : Nat) ≤ 100
      omega
    · exact mailGoogle_le m mx hm p h2
  · rw [if_neg hms] at hp
    exact mailGoogle_le m mx hm p hp

/-- C7.  Score range: when every catalog product carrying dns rules has a
total website rule weight of at most 80 (true of the repository's catalog:
Salesforce and Okta have two 40-weight script rules each, Slack and
SendGrid have no website rules at all), every DetectedProduct emitted by
the full detection pass — DNS augmentation (`score += 20`, uncapped in
the source) included — has a score of at most 100 (scores are naturals,
so at least 0). -/
theorem detection_score_range (pu : String → Option String)
    (catalog : List Fingerprint) (ev : PageEvidence) (dnsContent mx : String)
    (hnd : (catalog.map Fingerprint.name).Nodup)
    (hmax : ∀ fp ∈ catalog, fp.dns ≠ [] → maxWeight fp ≤ 80) :
    ∀ dp ∈ detectFromWebsite pu catalog ev dnsContent mx, dp.score ≤ 100 := by
  intro dp hdp
  unfold detectFromWebsite at hdp
  rw [List.mem_insertionSort] at hdp
  obtain ⟨p, hp, hpd⟩ := List.mem_map.mp hdp
  subst hpd
  unfold detectFromDNS at hp
  have hw : scoreInv catalog (catalog.foldl (websiteStep pu ev) []) :=
    website_fold_scoreInv pu ev catalog hnd hmax catalog (fun fp h => h) []
      (by intro p2 hp2; cases hp2)
  have hd := dns_fold_le pu dnsContent catalog _ hnd hw
  exact mailStep_le _ mx hd p hp

set_option maxRecDepth 4000 in
/-- Witness for C7: the Salesforce-shaped fingerprint reaches exactly 100
(80 from two script rules, clamped at 100, plus the uncapped dns bump). -/
theorem detection_score_range_witness :
    ({ name := "Salesforce"
       category := ""
       confidence := .high
       score := 100
       evidence := ["script: https://a.salesforce.com/x.js",
                    "script: https://b.force.com/y.js", "dns_record"]
       url := none
       source := "website_detection" } : DetectedProduct).score ≤ 100 :=
  detection_score_range pu0 [fpSalesforce] evSalesforce
    "v=spf1 include:salesforce.com" "" (by decide)
    (by
      intro fp hfp _
      rcases List.mem_singleton.mp hfp with rfl
      decide)
    _ (by decide)

/-! ### Mail-provider special case (C9) -/

theorem getA_mailStep_google (m : DMap) (mx : String)
    (hg : mxIsGoogle mx = true) :
    getA (mailStep m mx) "Google Workspace" = some googleWorkspaceEntry := by
  unfold mailStep mailGoogle
  rw [if_pos hg]
  by_cases hms : mxIsMicrosoft mx = true
  · rw [if_pos hms]
    rw [getA_setA_ne _ _ _ _ (by decide)]
    exact getA_setA_self _ _ _
  · rw [if_neg hms]
    exact getA_setA_self _ _ _

theorem getA_mailStep_microsoft (m : DMap) (mx : String)
    (hms : mxIsMicrosoft mx = true) :
    getA (mailStep m mx) "Microsoft 365" = some microsoft365Entry := by
  unfold mailStep
  rw [if_pos hms]
  exact getA_setA_self _ _ _

/-- C9.  Mail-provider detection bypasses the rule engine: whenever the MX
text contains a Google token (google/gmail/googlemail) the pass emits a
"Google Workspace" DetectedProduct with confidence high and fixed score
80; an Outlook/Microsoft token likewise yields "Microsoft 365" at 80,
both with source "dns_detection" and evidence ["mx_record"]. -/
theorem mx_provider_detection (pu : String → Option String)
    (catalog : List Fingerprint) (ev : PageEvidence) (dnsContent mx : String) :
    (mxIsGoogle mx = true →
      ∃ dp ∈ detectFromWebsite pu catalog ev dnsContent mx,
        dp.name = "Google Workspace" ∧ dp.confidence = .high ∧ dp.score = 80 ∧
          dp.source = "dns_detection" ∧ dp.evidence = ["mx_record"]) ∧
    (mxIsMicrosoft mx = true →
      ∃ dp ∈ detectFromWebsite pu catalog ev dnsContent mx,
        dp.name = "Microsoft 365" ∧ dp.confidence = .high ∧ dp.score = 80 ∧
          dp.source = "dns_detection" ∧ dp.evidence = ["mx_record"]) := by
  constructor
  · intro hg
    refine ⟨googleWorkspaceEntry, ?_, rfl, rfl, rfl, rfl, rfl⟩
    unfold detectFromWebsite detectFromDNS
    rw [List.mem_insertionSort]
    have hmem := mem_of_getA _ "Google Workspace" googleWorkspaceEntry
      (getA_mailStep_google
        ((catalog.foldl (dnsStep pu dnsContent)
          (catalog.foldl (websiteStep pu ev) []))) mx hg)
    exact List.mem_map_of_mem Prod.snd hmem
  · intro hms
    refine ⟨microsoft365Entry, ?_, rfl, rfl, rfl, rfl, rfl⟩
    unfold detectFromWebsite detectFromDNS
    rw [List.mem_insertionSort]
    have hmem := mem_of_getA _ "Microsoft 365" microsoft365Entry
      (getA_mailStep_microsoft
        ((catalog.foldl (dnsStep pu dnsContent)
          (catalog.foldl (websiteStep pu ev) []))) mx hms)
    exact List.mem_map_of_mem Prod.snd hmem

/-- Witness for C9 at concrete MX strings for both providers. -/
theorem mx_provider_detection_witness :
    (∃ dp ∈ detectFromWebsite pu0 [] evStripe "" "aspmx.l.google.com",
      dp.name = "Google Workspace" ∧ dp.confidence = .high ∧ dp.score = 80 ∧
        dp.source = "dns_detection" ∧ dp.evidence = ["mx_record"]) ∧
    (∃ dp ∈ detectFromWebsite pu0 [] evStripe "" "example-com.mail.protection.outlook.com",
      dp.name = "Microsoft 365" ∧ dp.confidence = .high ∧ dp.score = 80 ∧
        dp.source = "dns_detection" ∧ dp.evidence = ["mx_record"]) :=
  ⟨(mx_provider_detection pu0 [] evStripe "" "aspmx.l.google.com").1 (by decide),
   (mx_provider_detection pu0 [] evStripe ""
      "example-com.mail.protection.outlook.com").2 (by decide)⟩

end SaasScan
